import Mathlib

/-!
Verification of the news-to-sentiment aggregation pipeline of the
Financial_analysis_backend repository.

The development shallowly embeds the relevant Python sources:
* `src/parsing/article_parser.py`  — `calc_compound`, the rounding done in
  `save_compound` (compound sentiment aggregation);
* `src/parsing/article_analyzer.py` — `get_rate` (response parsing),
  `request_processing` (model-pool dispatch with retry/backoff),
  `text_processing` (text normalisation).

Python `int` values arising here are non-negative (they come from `\d+`
captures), so they are embedded as `ℕ`; true division in `calc_compound`
is embedded over `ℚ`.
-/

/-! ## Compound aggregation (`src/parsing/article_parser.py`)

`Rating` embeds the dict produced by `get_rate`:
`{'Decrease Probability': …, 'Increase Probability': …, 'Informativeness': …}`.
-/

structure Rating where
  decreaseProbability : ℕ
  increaseProbability : ℕ
  informativeness : ℕ
  deriving DecidableEq, Repr

/-- The running sum `rise` accumulated by the loop in `calc_compound`
(`rise = rise + news_rate["Increase Probability"] * news_rate["Informativeness"]`). -/
def riseSum (rating_list : List Rating) : ℕ :=
  rating_list.foldl (fun acc r => acc + r.increaseProbability * r.informativeness) 0

/-- The running sum `fall` accumulated by the loop in `calc_compound`. -/
def fallSum (rating_list : List Rating) : ℕ :=
  rating_list.foldl (fun acc r => acc + r.decreaseProbability * r.informativeness) 0

/-- The running sum `inform` accumulated by the loop in `calc_compound`. -/
def totalInform (rating_list : List Rating) : ℕ :=
  rating_list.foldl (fun acc r => acc + r.informativeness) 0

/-- Embeds `calc_compound` (article_parser.py, lines 119–140).  Python's
`fall/inform` raises `ZeroDivisionError` when `inform == 0`; that raise is
embedded as `none`.  Otherwise the function returns the pair
`(fall_prob, rise_prob)` of true-division results, embedded exactly in `ℚ`. -/
def calc_compound (rating_list : List Rating) : Option (ℚ × ℚ) :=
  let rise := riseSum rating_list
  let fall := fallSum rating_list
  let inform := totalInform rating_list
  if inform = 0 then none
  else some ((fall : ℚ) / (inform : ℚ), (rise : ℚ) / (inform : ℚ))

/-- Embeds Python's `round(x, 2)` tie behaviour (round-half-to-even) on the
integer scale: the nearest integer to `q`, ties to the even integer. -/
def roundHalfEven (q : ℚ) : ℤ :=
  let n := ⌊q⌋
  let r := q - (n : ℚ)
  if r < 1/2 then n
  else if 1/2 < r then n + 1
  else if 2 ∣ n then n else n + 1

/-- `round(x, 2)`: round to two decimal places, ties to even. -/
def pyRound2 (q : ℚ) : ℚ := (roundHalfEven (q * 100) : ℚ) / 100

/-- Embeds the per-company computation done in `save_compound`
(article_parser.py, lines 166–173): call `calc_compound` on the rating list
and round both probabilities to 2 decimals for the `SentimentCompound` row. -/
def save_compound_row (rating_list : List Rating) : Option (ℚ × ℚ) :=
  (calc_compound rating_list).map fun p => (pyRound2 p.1, pyRound2 p.2)

/-- The concrete rating list of the spec's aggregation example:
`[{decrease:20,increase:80,inform:100}, {decrease:60,increase:40,inform:50}]`. -/
def exampleRatings : List Rating :=
  [⟨20, 80, 100⟩, ⟨60, 40, 50⟩]

/-! ### Helper lemmas about the fold-based sums -/

theorem foldl_add_init (f : Rating → ℕ) (l : List Rating) (a : ℕ) :
    l.foldl (fun acc r => acc + f r) a = a + (l.map f).sum := by
  induction l generalizing a with
  | nil => simp
  | cons x xs ih => simp [List.foldl, ih, Nat.add_assoc]

theorem riseSum_eq (l : List Rating) :
    riseSum l = (l.map fun r => r.increaseProbability * r.informativeness).sum := by
  simpa using foldl_add_init (fun r => r.increaseProbability * r.informativeness) l 0

theorem fallSum_eq (l : List Rating) :
    fallSum l = (l.map fun r => r.decreaseProbability * r.informativeness).sum := by
  simpa using foldl_add_init (fun r => r.decreaseProbability * r.informativeness) l 0

theorem totalInform_eq (l : List Rating) :
    totalInform l = (l.map fun r => r.informativeness).sum := by
  simpa using foldl_add_init (fun r => r.informativeness) l 0

/-! ### Computation helpers for `roundHalfEven` -/

theorem roundHalfEven_lt (q : ℚ) (n : ℤ) (hf : ⌊q⌋ = n) (h : q - (n : ℚ) < 1/2) :
    roundHalfEven q = n := by
  simp only [roundHalfEven, hf]
  rw [if_pos h]

theorem roundHalfEven_gt (q : ℚ) (n : ℤ) (hf : ⌊q⌋ = n) (h : 1/2 < q - (n : ℚ)) :
    roundHalfEven q = n + 1 := by
  simp only [roundHalfEven, hf]
  rw [if_neg (by linarith), if_pos h]

theorem roundHalfEven_nonneg (q : ℚ) (h : 0 ≤ q) : 0 ≤ roundHalfEven q := by
  have hn : (0 : ℤ) ≤ ⌊q⌋ := Int.floor_nonneg.2 h
  simp only [roundHalfEven]
  split_ifs <;> omega

theorem roundHalfEven_le (q : ℚ) (m : ℤ) (h : q ≤ (m : ℚ)) : roundHalfEven q ≤ m := by
  have hn : ⌊q⌋ ≤ m := by
    have := Int.floor_le_floor h
    simpa using this
  simp only [roundHalfEven]
  split_ifs with h1 h2 h3
  · exact hn
  · -- q - ⌊q⌋ > 1/2, so ⌊q⌋ + 1/2 < q ≤ m, hence ⌊q⌋ < m in ℤ
    have hlt : (⌊q⌋ : ℚ) < (m : ℚ) := by linarith
    have : ⌊q⌋ < m := by exact_mod_cast hlt
    omega
  · exact hn
  · have hge : (1 : ℚ)/2 ≤ q - (⌊q⌋ : ℚ) := le_of_not_lt h1
    have hlt : (⌊q⌋ : ℚ) < (m : ℚ) := by linarith
    have : ⌊q⌋ < m := by exact_mod_cast hlt
    omega

theorem pyRound2_nonneg (q : ℚ) (h : 0 ≤ q) : 0 ≤ pyRound2 q := by
  have := roundHalfEven_nonneg (q * 100) (by positivity)
  rw [pyRound2]
  positivity

theorem pyRound2_le_100 (q : ℚ) (h : q ≤ 100) : pyRound2 q ≤ 100 := by
  have hb : roundHalfEven (q * 100) ≤ (10000 : ℤ) := by
    apply roundHalfEven_le
    push_cast
    linarith
  rw [pyRound2]
  rw [div_le_iff₀ (by norm_num : (0:ℚ) < 100)]
  calc ((roundHalfEven (q * 100) : ℤ) : ℚ) ≤ ((10000 : ℤ) : ℚ) := by exact_mod_cast hb
    _ = 100 * 100 := by norm_num

/-! ### Concrete evaluation of the spec's aggregation example -/

theorem calc_compound_example : calc_compound exampleRatings = some (100/3, 200/3) := by
  have hf : fallSum exampleRatings = 5000 := by decide
  have hr : riseSum exampleRatings = 10000 := by decide
  have ht : totalInform exampleRatings = 150 := by decide
  rw [calc_compound, hf, hr, ht]
  norm_num

theorem pyRound2_example_fall : pyRound2 ((100 : ℚ)/3) = 3333/100 := by
  have hq : (100 : ℚ)/3 * 100 = 10000/3 := by norm_num
  rw [pyRound2, hq, roundHalfEven_lt ((10000 : ℚ)/3) 3333 (by norm_num) (by norm_num)]
  norm_num

theorem pyRound2_example_rise : pyRound2 ((200 : ℚ)/3) = 6667/100 := by
  have hq : (200 : ℚ)/3 * 100 = 20000/3 := by norm_num
  rw [pyRound2, hq, roundHalfEven_gt ((20000 : ℚ)/3) 6666 (by norm_num) (by norm_num)]
  norm_num

theorem save_compound_row_example :
    save_compound_row exampleRatings = some (3333/100, 6667/100) := by
  rw [save_compound_row, calc_compound_example]
  simp [pyRound2_example_fall, pyRound2_example_rise]

/-! ### Claims about the compound aggregation -/

/-- C6: for every non-empty rating list with positive total informativeness,
the aggregation returns the informativeness-weighted averages
`(Σ decrease·informativeness / Σ informativeness, Σ increase·informativeness / Σ informativeness)`,
each rounded to 2 decimals; in particular, on the two ratings
`{decrease:20,increase:80,inform:100}` and `{decrease:60,increase:40,inform:50}`
it returns fallProbability `33.33` and riseProbability `66.67`. -/
theorem calc_compound_weighted_average (l : List Rating) (h : totalInform l ≠ 0) :
    save_compound_row l =
      some (pyRound2 ((fallSum l : ℚ) / (totalInform l : ℚ)),
            pyRound2 ((riseSum l : ℚ) / (totalInform l : ℚ)))
    ∧ save_compound_row exampleRatings = some (3333/100, 6667/100) := by
  refine ⟨?_, save_compound_row_example⟩
  rw [save_compound_row, calc_compound]
  simp only [if_neg h, Option.map_some']

theorem calc_compound_weighted_average_witness :
    totalInform exampleRatings ≠ 0 ∧
    save_compound_row exampleRatings = some (3333/100, 6667/100) :=
  ⟨by decide, (calc_compound_weighted_average exampleRatings (by decide)).2⟩

/-- C7: for every rating list with zero total informativeness (the empty list,
or every rating carrying zero informativeness), `calc_compound` hits the
division-by-zero condition and raises (embedded as `none`): it reports an
error and never returns a pair — in particular never `(0, 0)`. -/
theorem calc_compound_zero_weight_error (l : List Rating) (h : totalInform l = 0) :
    calc_compound l = none ∧ ∀ p : ℚ × ℚ, calc_compound l ≠ some p := by
  have hnone : calc_compound l = none := by
    rw [calc_compound]
    simp only [if_pos h]
  exact ⟨hnone, fun p hp => by rw [hnone] at hp; exact Option.noConfusion hp⟩

theorem calc_compound_zero_weight_error_witness :
    totalInform [(⟨30, 70, 0⟩ : Rating)] = 0 ∧
    calc_compound [(⟨30, 70, 0⟩ : Rating)] = none :=
  ⟨by decide, (calc_compound_zero_weight_error [⟨30, 70, 0⟩] (by decide)).1⟩

/-- C8 (counterexample): the claim "both returned values lie in [0, 1]" fails
on the code — on the spec's own example list the aggregation succeeds and
returns fallProbability `33.33`, which is not ≤ 1: the results live on the
0–100 scale of the input ratings, not in [0, 1]. -/
theorem compound_unit_interval_cex :
    save_compound_row exampleRatings = some (3333/100, 6667/100) ∧
    ¬ ((3333 : ℚ)/100 ≤ 1) :=
  ⟨save_compound_row_example, by norm_num⟩

/-- C8 (amended): for every rating list on which the aggregation succeeds and
whose ratings all carry decrease/increase probabilities in [0, 100], both
returned values lie in [0, 100] (the scale of the input ratings), rounded to
2 decimals. -/
theorem compound_range_0_100 (l : List Rating)
    (hb : ∀ r ∈ l, r.decreaseProbability ≤ 100 ∧ r.increaseProbability ≤ 100)
    (p : ℚ × ℚ) (hp : save_compound_row l = some p) :
    0 ≤ p.1 ∧ p.1 ≤ 100 ∧ 0 ≤ p.2 ∧ p.2 ≤ 100 := by
  by_cases h : totalInform l = 0
  · rw [save_compound_row, calc_compound] at hp
    simp only [if_pos h] at hp
    exact Option.noConfusion hp
  · rw [save_compound_row, calc_compound] at hp
    simp only [if_neg h, Option.map_some', Option.some.injEq] at hp
    have ht : (0 : ℚ) < (totalInform l : ℚ) := by
      exact_mod_cast Nat.pos_of_ne_zero h
    have hfall : (fallSum l : ℚ) / (totalInform l : ℚ) ≤ 100 := by
      rw [div_le_iff₀ ht]
      have : fallSum l ≤ 100 * totalInform l := by
        rw [fallSum_eq, totalInform_eq, ← List.sum_map_mul_left]
        exact List.sum_le_sum fun r hr =>
          Nat.mul_le_mul_right r.informativeness (hb r hr).1
      calc (fallSum l : ℚ) ≤ ((100 * totalInform l : ℕ) : ℚ) := by exact_mod_cast this
        _ = 100 * (totalInform l : ℚ) := by push_cast; ring
    have hrise : (riseSum l : ℚ) / (totalInform l : ℚ) ≤ 100 := by
      rw [div_le_iff₀ ht]
      have : riseSum l ≤ 100 * totalInform l := by
        rw [riseSum_eq, totalInform_eq, ← List.sum_map_mul_left]
        exact List.sum_le_sum fun r hr =>
          Nat.mul_le_mul_right r.informativeness (hb r hr).2
      calc (riseSum l : ℚ) ≤ ((100 * totalInform l : ℕ) : ℚ) := by exact_mod_cast this
        _ = 100 * (totalInform l : ℚ) := by push_cast; ring
    have hfall0 : (0 : ℚ) ≤ (fallSum l : ℚ) / (totalInform l : ℚ) :=
      div_nonneg (Nat.cast_nonneg _) (le_of_lt ht)
    have hrise0 : (0 : ℚ) ≤ (riseSum l : ℚ) / (totalInform l : ℚ) :=
      div_nonneg (Nat.cast_nonneg _) (le_of_lt ht)
    rw [← hp]
    exact ⟨pyRound2_nonneg _ hfall0, pyRound2_le_100 _ hfall,
           pyRound2_nonneg _ hrise0, pyRound2_le_100 _ hrise⟩

theorem compound_range_0_100_witness :
    (∀ r ∈ exampleRatings, r.decreaseProbability ≤ 100 ∧ r.increaseProbability ≤ 100) ∧
    (0 ≤ (3333 : ℚ)/100 ∧ (3333 : ℚ)/100 ≤ 100 ∧ 0 ≤ (6667 : ℚ)/100 ∧ (6667 : ℚ)/100 ≤ 100) :=
  ⟨by decide, compound_range_0_100 exampleRatings (by decide)
    (3333/100, 6667/100) save_compound_row_example⟩

theorem fall_add_rise_eq (l : List Rating)
    (hs : ∀ r ∈ l, r.decreaseProbability + r.increaseProbability = 100) :
    fallSum l + riseSum l = 100 * totalInform l := by
  rw [fallSum_eq, riseSum_eq, totalInform_eq]
  induction l with
  | nil => simp
  | cons r t ih =>
    have hr : r.decreaseProbability + r.increaseProbability = 100 :=
      hs r (List.mem_cons_self r t)
    have ih' := ih fun x hx => hs x (List.mem_cons_of_mem r hx)
    simp only [List.map_cons, List.sum_cons]
    calc r.decreaseProbability * r.informativeness +
          (t.map fun x => x.decreaseProbability * x.informativeness).sum +
          (r.increaseProbability * r.informativeness +
           (t.map fun x => x.increaseProbability * x.informativeness).sum)
        = (r.decreaseProbability + r.increaseProbability) * r.informativeness +
          ((t.map fun x => x.decreaseProbability * x.informativeness).sum +
           (t.map fun x => x.increaseProbability * x.informativeness).sum) := by ring
      _ = 100 * r.informativeness + 100 * (t.map fun x => x.informativeness).sum := by
          rw [hr, ih']
      _ = 100 * (r.informativeness + (t.map fun x => x.informativeness).sum) := by ring

/-- C10: for every rating list with positive total informativeness in which
every rating satisfies `decrease + increase = 100`, the two values computed by
`calc_compound` before rounding sum to exactly 100 — the informativeness-weighted
average preserves the sum-to-100 invariant of its inputs. -/
theorem calc_compound_sum_invariant (l : List Rating)
    (hs : ∀ r ∈ l, r.decreaseProbability + r.increaseProbability = 100)
    (h : totalInform l ≠ 0)
    (p : ℚ × ℚ) (hp : calc_compound l = some p) :
    p.1 + p.2 = 100 := by
  have key : fallSum l + riseSum l = 100 * totalInform l := fall_add_rise_eq l hs
  rw [calc_compound] at hp
  simp only [if_neg h, Option.some.injEq] at hp
  have ht : ((totalInform l : ℚ)) ≠ 0 := by exact_mod_cast h
  rw [← hp]
  have : (fallSum l : ℚ) + (riseSum l : ℚ) = 100 * (totalInform l : ℚ) := by
    exact_mod_cast congrArg (Nat.cast : ℕ → ℚ) key
  calc (fallSum l : ℚ) / (totalInform l : ℚ) + (riseSum l : ℚ) / (totalInform l : ℚ)
      = ((fallSum l : ℚ) + (riseSum l : ℚ)) / (totalInform l : ℚ) := by rw [div_add_div_same]
    _ = 100 * (totalInform l : ℚ) / (totalInform l : ℚ) := by rw [this]
    _ = 100 := by rw [mul_div_assoc, div_self ht, mul_one]

theorem calc_compound_sum_invariant_witness :
    (∀ r ∈ exampleRatings, r.decreaseProbability + r.increaseProbability = 100) ∧
    totalInform exampleRatings ≠ 0 ∧
    ((100 : ℚ)/3 + (200 : ℚ)/3 = 100) :=
  ⟨by decide, by decide, calc_compound_sum_invariant exampleRatings (by decide) (by decide)
    (100/3, 200/3) calc_compound_example⟩

/-! ## Model pool & request dispatcher (`request_processing`, article_analyzer.py 130–169) -/

/-- Outcome of one `model.generate_content(request)` call, as classified by
`request_processing`: a truthy response, a falsy response (the `if response:`
guard fails and the loop just continues), an exception whose text contains
`'429'` (rate limited), or any other exception. -/
inductive CallOutcome (R : Type) where
  | success : R → CallOutcome R
  | falsy : CallOutcome R
  | rateLimited : CallOutcome R
  | hardError : CallOutcome R
  deriving DecidableEq, Repr

/-- How `request_processing` terminates: `return response`, `return None`
after the retry budget (the loop) is exhausted, a re-raised non-429 exception,
or an `IndexError` from `MODELS.pop()` on an empty pool. -/
inductive DispatchResult (R : Type) where
  | ok : R → DispatchResult R
  | exhausted : DispatchResult R
  | raised : DispatchResult R
  | poolError : DispatchResult R
  deriving DecidableEq, Repr

/-- Observable trace of one `request_processing` call: its result, the final
`MODELS` pool, the arguments of the `sleep(delay)` backoff calls in order, the
arguments of the post-success `sleep(10)` cooldown calls, and the number of
`generate_content` calls made. -/
structure DispatchTrace (R M : Type) where
  result : DispatchResult R
  pool : List M
  backoffs : List Nat
  cooldowns : List Nat
  attempts : Nat
  deriving DecidableEq, Repr

/-- Embeds the `for attempt in range(max_retries)` loop of `request_processing`.
`remaining` is the number of loop iterations left; `attempt` is the loop
index (also the count of calls already made).  `MODELS.pop()` takes from the
end of the list, `MODELS.append` puts back at the end; on a 429 error the
loop sleeps `delay`, grows `delay` by `backoff_factor = 5` and re-appends the
handle; on success it sleeps the fixed 10-unit cooldown and returns; on any
other exception it re-raises; a falsy response just continues the loop. -/
def requestLoop {R M : Type} (backend : Nat → CallOutcome R) :
    Nat → Nat → List M → List Nat → Nat → DispatchTrace R M
  | 0, _, pool, backoffs, attempt =>
      ⟨.exhausted, pool, backoffs, [], attempt⟩
  | remaining + 1, delay, pool, backoffs, attempt =>
      match pool.getLast? with
      | none => ⟨.poolError, pool, backoffs, [], attempt⟩
      | some model =>
          match backend attempt with
          | .success r => ⟨.ok r, pool.dropLast, backoffs, [10], attempt + 1⟩
          | .falsy => requestLoop backend remaining delay pool.dropLast backoffs (attempt + 1)
          | .rateLimited =>
              requestLoop backend remaining (delay + 5) (pool.dropLast ++ [model])
                (backoffs ++ [delay]) (attempt + 1)
          | .hardError => ⟨.raised, pool.dropLast, backoffs, [], attempt + 1⟩

/-- Embeds `request_processing`: when the global `MODELS` list is empty it is
first repopulated by `create_models()` (embedded as the `freshModels`
argument), then the retry loop runs with `max_retries = 6` and initial
`delay = 10`. -/
def request_processing {R M : Type} (backend : Nat → CallOutcome R)
    (models freshModels : List M) : DispatchTrace R M :=
  requestLoop backend 6 10 (if models.isEmpty then freshModels else models) [] 0

/-- The sequence of backoff delays slept by `k` consecutive rate-limited
attempts starting from `delay`: `delay, delay+5, …, delay+5(k-1)`. -/
def backoffSeq (delay : Nat) : Nat → List Nat
  | 0 => []
  | k + 1 => delay :: backoffSeq (delay + 5) k

/-! ### Step lemmas for the retry loop -/

theorem requestLoop_step_rl {R M : Type} (backend : Nat → CallOutcome R)
    (rem delay attempt : Nat) (pool : List M) (backoffs : List Nat) (m : M)
    (hm : pool.getLast? = some m) (hb : backend attempt = CallOutcome.rateLimited) :
    requestLoop backend (rem + 1) delay pool backoffs attempt =
      requestLoop backend rem (delay + 5) (pool.dropLast ++ [m])
        (backoffs ++ [delay]) (attempt + 1) := by
  simp [requestLoop, hm, hb]

theorem requestLoop_step_success {R M : Type} (backend : Nat → CallOutcome R)
    (rem delay attempt : Nat) (pool : List M) (backoffs : List Nat) (m : M) (r : R)
    (hm : pool.getLast? = some m) (hb : backend attempt = CallOutcome.success r) :
    requestLoop backend (rem + 1) delay pool backoffs attempt =
      ⟨.ok r, pool.dropLast, backoffs, [10], attempt + 1⟩ := by
  simp [requestLoop, hm, hb]

theorem requestLoop_step_hard {R M : Type} (backend : Nat → CallOutcome R)
    (rem delay attempt : Nat) (pool : List M) (backoffs : List Nat) (m : M)
    (hm : pool.getLast? = some m) (hb : backend attempt = CallOutcome.hardError) :
    requestLoop backend (rem + 1) delay pool backoffs attempt =
      ⟨.raised, pool.dropLast, backoffs, [], attempt + 1⟩ := by
  simp [requestLoop, hm, hb]

theorem getLast?_of_ne_nil {M : Type} (pool : List M) (h : pool ≠ []) :
    ∃ m, pool.getLast? = some m := by
  have hs : pool.getLast?.isSome := List.getLast?_isSome.2 h
  exact Option.isSome_iff_exists.1 hs

theorem rot_length {M : Type} (pool : List M) (m : M) (h : pool ≠ []) :
    (pool.dropLast ++ [m]).length = pool.length := by
  have : 1 ≤ pool.length := List.length_pos.2 h
  simp [List.length_dropLast]
  omega

/-- Running `k` consecutive rate-limited attempts transforms the loop state:
budget shrinks by `k`, the delay grows by `5k`, the slept backoffs
`delay, delay+5, …` are appended, the attempt counter advances by `k`, and the
pool is replaced by some pool of the same length (each 429 pops the last
handle and re-appends it). -/
theorem requestLoop_rl_prefix {R M : Type} (backend : Nat → CallOutcome R) :
    ∀ (k rem delay attempt : Nat) (pool : List M) (backoffs : List Nat),
      pool ≠ [] →
      (∀ i, attempt ≤ i → i < attempt + k → backend i = CallOutcome.rateLimited) →
      ∃ pool' : List M, pool'.length = pool.length ∧ pool' ≠ [] ∧
        requestLoop backend (rem + k) delay pool backoffs attempt =
          requestLoop backend rem (delay + 5 * k) pool'
            (backoffs ++ backoffSeq delay k) (attempt + k) := by
  intro k
  induction k with
  | zero =>
    intro rem delay attempt pool backoffs hne _
    exact ⟨pool, rfl, hne, by simp [backoffSeq]⟩
  | succ k ih =>
    intro rem delay attempt pool backoffs hne hrl
    obtain ⟨m, hm⟩ := getLast?_of_ne_nil pool hne
    have h0 : backend attempt = CallOutcome.rateLimited := hrl attempt le_rfl (by omega)
    have hstep := requestLoop_step_rl backend (rem + k) delay attempt pool backoffs m hm h0
    have hne' : pool.dropLast ++ [m] ≠ [] := by simp
    have hrl' : ∀ i, attempt + 1 ≤ i → i < (attempt + 1) + k →
        backend i = CallOutcome.rateLimited := fun i h1 h2 => hrl i (by omega) (by omega)
    obtain ⟨pool', hlen, hne'', heq⟩ :=
      ih rem (delay + 5) (attempt + 1) (pool.dropLast ++ [m]) (backoffs ++ [delay]) hne' hrl'
    refine ⟨pool', ?_, hne'', ?_⟩
    · rw [hlen, rot_length pool m hne]
    · have e1 : rem + (k + 1) = (rem + k) + 1 := rfl
      have e2 : delay + 5 + 5 * k = delay + 5 * (k + 1) := by ring
      have e3 : attempt + 1 + k = attempt + (k + 1) := by omega
      have e4 : (backoffs ++ [delay]) ++ backoffSeq (delay + 5) k =
          backoffs ++ backoffSeq delay (k + 1) := by
        simp [backoffSeq, List.append_assoc]
      rw [e1, hstep, heq, e2, e3, e4]

/-! ### Claims about the dispatcher -/

/-- C3: for a backend that answers a rate-limit-classified error on the first
5 attempts and a success on the 6th, `request_processing` returns the success
response, and the backoff delays slept before each retry are exactly
`10, 15, 20, 25, 30` — starting at 10 and growing by 5 after every
rate-limited attempt. -/
theorem dispatch_retry_backoff {R M : Type} (backend : Nat → CallOutcome R)
    (r : R) (pool fresh : List M)
    (h5 : ∀ i, i < 5 → backend i = CallOutcome.rateLimited)
    (h6 : backend 5 = CallOutcome.success r)
    (hne : pool ≠ []) :
    (request_processing backend pool fresh).result = DispatchResult.ok r ∧
    (request_processing backend pool fresh).backoffs = [10, 15, 20, 25, 30] := by
  obtain ⟨a, t, rfl⟩ : ∃ a t, pool = a :: t := by
    cases pool with
    | nil => exact absurd rfl hne
    | cons a t => exact ⟨a, t, rfl⟩
  have hrp : request_processing backend (a :: t) fresh =
      requestLoop backend 6 10 (a :: t) [] 0 := rfl
  obtain ⟨pool₁, hlen, hne₁, heq⟩ :=
    requestLoop_rl_prefix backend 5 1 10 0 (a :: t) [] (by simp)
      (fun i _ h2 => h5 i (by omega))
  obtain ⟨m, hm⟩ := getLast?_of_ne_nil pool₁ hne₁
  have hsucc := requestLoop_step_success backend 0 (10 + 5 * 5) (0 + 5) pool₁
      ([] ++ backoffSeq 10 5) m r hm h6
  rw [hrp, show (6 : ℕ) = 1 + 5 from rfl, heq,
      show (1 : ℕ) = 0 + 1 from rfl, hsucc]
  exact ⟨rfl, rfl⟩

theorem dispatch_retry_backoff_witness :
    (∀ i, i < 5 →
      (fun j => if j < 5 then CallOutcome.rateLimited else CallOutcome.success (7 : ℕ)) i =
        CallOutcome.rateLimited) ∧
    (request_processing
        (fun j => if j < 5 then CallOutcome.rateLimited else CallOutcome.success (7 : ℕ))
        ([0] : List ℕ) ([] : List ℕ)).result = DispatchResult.ok 7 ∧
    (request_processing
        (fun j => if j < 5 then CallOutcome.rateLimited else CallOutcome.success (7 : ℕ))
        ([0] : List ℕ) ([] : List ℕ)).backoffs = [10, 15, 20, 25, 30] :=
  ⟨fun i hi => if_pos hi,
   dispatch_retry_backoff _ 7 [0] [] (fun i hi => if_pos hi) rfl (by decide)⟩

/-- C4: for a backend that answers a rate-limit-classified error on every
attempt, `request_processing` makes exactly 6 `generate_content` calls, then
returns the terminal exhausted failure (Python's `return None`) with no
response and without raising; that outcome is distinct from a propagated
non-retryable failure (`raise`). -/
theorem dispatch_exhausted {R M : Type} (backend : Nat → CallOutcome R)
    (pool fresh : List M)
    (h : ∀ i, i < 6 → backend i = CallOutcome.rateLimited)
    (hne : pool ≠ []) :
    (request_processing backend pool fresh).result = DispatchResult.exhausted ∧
    (request_processing backend pool fresh).attempts = 6 ∧
    (∀ r : R, (DispatchResult.exhausted : DispatchResult R) ≠ DispatchResult.ok r) ∧
    ((DispatchResult.exhausted : DispatchResult R) ≠ DispatchResult.raised) := by
  obtain ⟨a, t, rfl⟩ : ∃ a t, pool = a :: t := by
    cases pool with
    | nil => exact absurd rfl hne
    | cons a t => exact ⟨a, t, rfl⟩
  have hrp : request_processing backend (a :: t) fresh =
      requestLoop backend 6 10 (a :: t) [] 0 := rfl
  obtain ⟨pool₁, hlen, hne₁, heq⟩ :=
    requestLoop_rl_prefix backend 6 0 10 0 (a :: t) [] (by simp)
      (fun i _ h2 => h i (by omega))
  refine ⟨?_, ?_, fun r hc => DispatchResult.noConfusion hc,
    fun hc => DispatchResult.noConfusion hc⟩
  · rw [hrp, show (6 : ℕ) = 0 + 6 from rfl, heq]
    rfl
  · rw [hrp, show (6 : ℕ) = 0 + 6 from rfl, heq]
    rfl

theorem dispatch_exhausted_witness :
    (∀ i : Nat, i < 6 →
      (fun _ => (CallOutcome.rateLimited : CallOutcome ℕ)) i = CallOutcome.rateLimited) ∧
    (request_processing (fun _ => (CallOutcome.rateLimited : CallOutcome ℕ))
        ([0] : List ℕ) ([] : List ℕ)).result = DispatchResult.exhausted ∧
    (request_processing (fun _ => (CallOutcome.rateLimited : CallOutcome ℕ))
        ([0] : List ℕ) ([] : List ℕ)).attempts = 6 :=
  ⟨fun _ _ => rfl,
   (dispatch_exhausted (fun _ => (CallOutcome.rateLimited : CallOutcome ℕ))
      [0] [] (fun _ _ => rfl) (by decide)).1,
   (dispatch_exhausted (fun _ => (CallOutcome.rateLimited : CallOutcome ℕ))
      [0] [] (fun _ _ => rfl) (by decide)).2.1⟩

/-- C5 (counterexample): the claim that every acquired handle is returned so
that the pool size is preserved fails on the code.  With pool `[0,1,2]` and a
backend that succeeds immediately, `request_processing` returns the response
but the popped handle is never appended back: the final pool is `[0,1]`,
of size 2 ≠ 3. -/
theorem pool_preservation_cex :
    (request_processing (fun _ => CallOutcome.success (7 : ℕ))
        ([0, 1, 2] : List ℕ) ([] : List ℕ)).result = DispatchResult.ok 7 ∧
    (request_processing (fun _ => CallOutcome.success (7 : ℕ))
        ([0, 1, 2] : List ℕ) ([] : List ℕ)).pool = [0, 1] ∧
    ¬ ((request_processing (fun _ => CallOutcome.success (7 : ℕ))
        ([0, 1, 2] : List ℕ) ([] : List ℕ)).pool.length = ([0, 1, 2] : List ℕ).length) := by
  decide

/-- C5 (amended): only rate-limited attempts return the acquired handle to
the pool.  On success the handle is not released back before returning (the
pool shrinks by its last element), on a non-retryable failure the handle is
likewise not returned before the failure propagates, and only a run of
rate-limited attempts preserves the pool size. -/
theorem pool_release_discipline {R M : Type} (backend : Nat → CallOutcome R)
    (pool fresh : List M) (hne : pool ≠ []) :
    (∀ r, backend 0 = CallOutcome.success r →
        (request_processing backend pool fresh).pool = pool.dropLast) ∧
    (backend 0 = CallOutcome.hardError →
        (request_processing backend pool fresh).pool = pool.dropLast) ∧
    ((∀ i, i < 6 → backend i = CallOutcome.rateLimited) →
        (request_processing backend pool fresh).pool.length = pool.length) := by
  obtain ⟨a, t, rfl⟩ : ∃ a t, pool = a :: t := by
    cases pool with
    | nil => exact absurd rfl hne
    | cons a t => exact ⟨a, t, rfl⟩
  have hrp : request_processing backend (a :: t) fresh =
      requestLoop backend 6 10 (a :: t) [] 0 := rfl
  obtain ⟨m, hm⟩ := getLast?_of_ne_nil (a :: t) (by simp)
  refine ⟨?_, ?_, ?_⟩
  · intro r hb
    rw [hrp, show (6 : ℕ) = 5 + 1 from rfl,
        requestLoop_step_success backend 5 10 0 (a :: t) [] m r hm hb]
  · intro hb
    rw [hrp, show (6 : ℕ) = 5 + 1 from rfl,
        requestLoop_step_hard backend 5 10 0 (a :: t) [] m hm hb]
  · intro hrl
    obtain ⟨pool₁, hlen, hne₁, heq⟩ :=
      requestLoop_rl_prefix backend 6 0 10 0 (a :: t) [] (by simp)
        (fun i _ h2 => hrl i (by omega))
    rw [hrp, show (6 : ℕ) = 0 + 6 from rfl, heq]
    exact hlen

theorem pool_release_discipline_witness :
    ([0, 1, 2] : List ℕ) ≠ [] ∧
    (request_processing (fun _ => CallOutcome.success (7 : ℕ))
        ([0, 1, 2] : List ℕ) ([] : List ℕ)).pool = [0, 1] := by
  have h := (pool_release_discipline (fun _ => CallOutcome.success (7 : ℕ))
      ([0, 1, 2] : List ℕ) ([] : List ℕ) (by decide)).1 7 rfl
  exact ⟨by decide, by rw [h]; decide⟩

/-! ## Response parsing (`get_rate`, article_analyzer.py 222–263)

Python strings are embedded as lists of Unicode code points (`List ℕ`); the
case-mapping of `str.lower()` is modelled on the ASCII range, which covers
every character of the three patterns. -/

abbrev PyStr := List ℕ

/-- The code points of a string literal (used for concrete inputs and the
pattern keywords). -/
def strCodes (s : String) : PyStr := s.toList.map Char.toNat

/-- ASCII case-mapping of `str.lower()` on one code point. -/
def lowerCode (c : ℕ) : ℕ := if 65 ≤ c ∧ c ≤ 90 then c + 32 else c

/-- `summary.lower()`. -/
def pyLower (s : PyStr) : PyStr := s.map lowerCode

/-- `\d`: an ASCII digit code point. -/
def isDigitCode (c : ℕ) : Bool := 48 ≤ c && c ≤ 57

/-- Match a literal piece of a pattern at the head of `s`; return the rest. -/
def matchLit : PyStr → PyStr → Option PyStr
  | s, [] => some s
  | [], _ :: _ => none
  | c :: s, l :: ls => if c = l then matchLit s ls else none

/-- Split off the maximal leading run of digits (the greedy `\d+`). -/
def takeDigits : PyStr → PyStr × PyStr
  | [] => ([], [])
  | c :: s =>
    if isDigitCode c then
      let p := takeDigits s
      (c :: p.1, p.2)
    else ([], c :: s)

/-- Match the capture group `(\d+%)` at the head of `s`: a non-empty digit run
followed by `'%'` (code 37).  The captured text includes the `%`, exactly as
the group in the source pattern does. -/
def matchPctGroup (s : PyStr) : Option (PyStr × PyStr) :=
  match takeDigits s with
  | ([], _) => none
  | (ds, rest) =>
    match rest with
    | c :: r => if c = 37 then some (ds ++ [37], r) else none
    | [] => none

/-- Match the forecast pattern `\(kw1 (\d+%) \| kw2 (\d+%)\)` at the head of
`s`; on success return the two captured groups and the rest of the text.
Codes: `'('` = 40, `' '` = 32, `'|'` = 124, `')'` = 41. -/
def tryForecast (kw1 kw2 : PyStr) (s : PyStr) : Option ((PyStr × PyStr) × PyStr) :=
  (matchLit s (40 :: (kw1 ++ [32]))).bind fun s1 =>
  (matchPctGroup s1).bind fun g1 =>
  (matchLit g1.2 (32 :: 124 :: 32 :: (kw2 ++ [32]))).bind fun s2 =>
  (matchPctGroup s2).bind fun g2 =>
  (matchLit g2.2 [41]).map fun s3 =>
  ((g1.1, g2.1), s3)

/-- `re.findall` for a forecast pattern: scan left to right, collect
non-overlapping matches, resume after each match.  `fuel` bounds the scan;
`length s + 1` is always enough since every step consumes at least one
code point. -/
def findForecasts (kw1 kw2 : PyStr) : ℕ → PyStr → List (PyStr × PyStr)
  | 0, _ => []
  | _, [] => []
  | fuel + 1, c :: s =>
    match tryForecast kw1 kw2 (c :: s) with
    | some (g, rest) => g :: findForecasts kw1 kw2 fuel rest
    | none => findForecasts kw1 kw2 fuel s

def kwDecrease : PyStr := strCodes "decrease"

def kwIncrease : PyStr := strCodes "increase"

/-- `forecast_pattern_1.findall`: `\(decrease (\d+%) \| increase (\d+%)\)`. -/
def findallForecast1 (s : PyStr) : List (PyStr × PyStr) :=
  findForecasts kwDecrease kwIncrease (s.length + 1) s

/-- `forecast_pattern_2.findall`: `\(increase (\d+%) \| decrease (\d+%)\)`. -/
def findallForecast2 (s : PyStr) : List (PyStr × PyStr) :=
  findForecasts kwIncrease kwDecrease (s.length + 1) s

/-- Match `\(informativeness: (\d+%)\)` at the head of `s`. -/
def tryInform (s : PyStr) : Option (PyStr × PyStr) :=
  (matchLit s (strCodes "(informativeness: ")).bind fun s1 =>
  (matchPctGroup s1).bind fun g =>
  (matchLit g.2 [41]).map fun s2 => (g.1, s2)

/-- `informativeness_pattern.findall`. -/
def findInforms : ℕ → PyStr → List PyStr
  | 0, _ => []
  | _, [] => []
  | fuel + 1, c :: s =>
    match tryInform (c :: s) with
    | some (g, rest) => g :: findInforms fuel rest
    | none => findInforms fuel s

def findallInform (s : PyStr) : List PyStr := findInforms (s.length + 1) s

/-- `.replace('%', '')`. -/
def stripPct (s : PyStr) : PyStr := s.filter (fun c => c != 37)

/-- `int(...)` on a string of ASCII digits. -/
def pyInt (s : PyStr) : ℕ := s.foldl (fun n c => 10 * n + (c - 48)) 0

/-- An element of the Python `forecasts` variable, which holds either a list
of 2-tuples of captured groups or the literal default list `["50%", "50%"]`
of bare strings.  Indexing `[i]` selects a tuple component, or — for a bare
string — the single character at position `i` (itself a string). -/
inductive PyVal where
  | tup : PyStr × PyStr → PyVal
  | str : PyStr → PyVal
  deriving DecidableEq, Repr

/-- Python `v[i]` for an element of `forecasts`. -/
def pyIndex (v : PyVal) (i : ℕ) : PyStr :=
  match v with
  | .tup p => if i = 0 then p.1 else p.2
  | .str s => (s.drop i).take 1

/-- Embeds `get_rate` (article_analyzer.py, lines 222–263).  The summary is
lowercased; pattern 1 is tried first; else pattern 2 with the two groups
swapped (the `len(swap[0]) >= 2` guard in the source is always true because
the pattern has exactly two groups); else the default list `["50%", "50%"]`.
`forecasts` is non-empty on every path, so the `headD` default is never
used — it stands for Python's `forecasts[0]`. -/
def get_rate (summary : PyStr) : Rating :=
  let lower_summary := pyLower summary
  let forecasts₀ := findallForecast1 lower_summary
  let forecasts : List PyVal :=
    if forecasts₀.isEmpty then
      match findallForecast2 lower_summary with
      | q :: _ => [PyVal.tup (q.2, q.1)]
      | [] => [PyVal.str (strCodes "50%"), PyVal.str (strCodes "50%")]
    else forecasts₀.map PyVal.tup
  let informativeness :=
    match findallInform lower_summary with
    | [] => 50
    | i :: _ => pyInt (stripPct i)
  let f0 := forecasts.headD (PyVal.str [])
  { decreaseProbability := pyInt (stripPct (pyIndex f0 0)),
    increaseProbability := pyInt (stripPct (pyIndex f0 1)),
    informativeness := informativeness }

/-! ### Claims about the response parser -/

/-- C1: the claim says that with no forecast pattern the parse defaults to
`(decrease=50, increase=50)`.  The code disagrees with its own comment
(`# Default to 50-50 if no patterns found`): the default `forecasts` is the
list of *strings* `["50%", "50%"]`, so `forecasts[0][0]` is the character
`'5'` and `forecasts[0][1]` is `'0'`, and the parse returns
`(decrease=5, increase=0)`.  The informativeness default of 50 does hold.
This theorem evaluates the embedded `get_rate` at a pattern-free input. -/
theorem get_rate_default_bug :
    get_rate (strCodes "No clear forecast in this text") =
      { decreaseProbability := 5, increaseProbability := 0, informativeness := 50 } := by
  decide

/-- C2: for every response text whose lowercasing matches the reversed
pattern `(increase Q% | decrease P%)` (with first match capturing `(Q%, P%)`)
and not the decrease-first pattern, `get_rate` returns the normalized pair
`(decrease=P, increase=Q)` — the same pair it returns for any text whose
lowercasing matches `(decrease P% | increase Q%)` first: the forecast
extraction is order-invariant. -/
theorem get_rate_order_invariance (s t : PyStr) (q p : PyStr)
    (rest rest' : List (PyStr × PyStr))
    (h1 : findallForecast1 (pyLower s) = [])
    (h2 : findallForecast2 (pyLower s) = (q, p) :: rest)
    (h3 : findallForecast1 (pyLower t) = (p, q) :: rest') :
    (get_rate s).decreaseProbability = pyInt (stripPct p) ∧
    (get_rate s).increaseProbability = pyInt (stripPct q) ∧
    (get_rate s).decreaseProbability = (get_rate t).decreaseProbability ∧
    (get_rate s).increaseProbability = (get_rate t).increaseProbability := by
  have hs : (get_rate s).decreaseProbability = pyInt (stripPct p) ∧
      (get_rate s).increaseProbability = pyInt (stripPct q) := by
    simp [get_rate, h1, h2, pyIndex, List.headD]
  have ht : (get_rate t).decreaseProbability = pyInt (stripPct p) ∧
      (get_rate t).increaseProbability = pyInt (stripPct q) := by
    simp [get_rate, h3, pyIndex, List.headD]
  exact ⟨hs.1, hs.2, by rw [hs.1, ht.1], by rw [hs.2, ht.2]⟩

theorem get_rate_order_invariance_witness :
    findallForecast1 (pyLower (strCodes "(increase 70% | decrease 30%)")) = [] ∧
    findallForecast2 (pyLower (strCodes "(increase 70% | decrease 30%)")) =
      [(strCodes "70%", strCodes "30%")] ∧
    findallForecast1 (pyLower (strCodes "(decrease 30% | increase 70%)")) =
      [(strCodes "30%", strCodes "70%")] ∧
    (get_rate (strCodes "(increase 70% | decrease 30%)")).decreaseProbability =
      pyInt (stripPct (strCodes "30%")) ∧
    (get_rate (strCodes "(increase 70% | decrease 30%)")).increaseProbability =
      pyInt (stripPct (strCodes "70%")) ∧
    (get_rate (strCodes "(increase 70% | decrease 30%)")).decreaseProbability =
      (get_rate (strCodes "(decrease 30% | increase 70%)")).decreaseProbability ∧
    (get_rate (strCodes "(increase 70% | decrease 30%)")).increaseProbability =
      (get_rate (strCodes "(decrease 30% | increase 70%)")).increaseProbability :=
  ⟨by decide, by decide, by decide,
   get_rate_order_invariance
     (strCodes "(increase 70% | decrease 30%)") (strCodes "(decrease 30% | increase 70%)")
     (strCodes "70%") (strCodes "30%") [] []
     (by decide) (by decide) (by decide)⟩

/-! ## Text normalisation (`text_processing`, article_analyzer.py 172–198)

The NLTK tokenizers `sent_tokenize` / `word_tokenize` and the NLTK English
stopword set are external library data, so they enter the embedding as
parameters; the claims constrain them by standard-behaviour hypotheses.
Character classes model the ASCII behaviour of `\w` and `\s`. -/

/-- `\w`: ASCII word character (digit, letter, underscore). -/
def isWordCode (c : ℕ) : Bool :=
  (48 ≤ c && c ≤ 57) || (65 ≤ c && c ≤ 90) || (97 ≤ c && c ≤ 122) || c == 95

/-- `\s`: ASCII whitespace. -/
def isSpaceCode (c : ℕ) : Bool :=
  c == 32 || c == 9 || c == 10 || c == 13 || c == 11 || c == 12

/-- The class `[.!?]` of the sentence-spacing pattern. -/
def isSentPunct (c : ℕ) : Bool := c == 46 || c == 33 || c == 63

/-- ASCII case-mapping of `str.upper()` on one code point. -/
def upperCode (c : ℕ) : ℕ := if 97 ≤ c ∧ c ≤ 122 then c - 32 else c

/-- `str.capitalize()`: first character uppercased, the rest lowercased. -/
def pyCapitalize : PyStr → PyStr
  | [] => []
  | c :: s => upperCode c :: pyLower s

/-- Split off the maximal leading run of `\w` characters. -/
def takeWordChars : PyStr → PyStr × PyStr
  | [] => ([], [])
  | c :: s =>
    if isWordCode c then
      let p := takeWordChars s
      (c :: p.1, p.2)
    else ([], c :: s)

/-- Match `\(\w+\)` at the head of `s`; on success return the rest. -/
def trySup1 (s : PyStr) : Option PyStr :=
  (matchLit s [40]).bind fun s1 =>
  match takeWordChars s1 with
  | ([], _) => none
  | (_, rest) => matchLit rest [41]

/-- `SUPERFLUOUS_PATTERN_1.sub('', ·)`: delete every `\(\w+\)` match,
scanning left to right. -/
def subSup1 : ℕ → PyStr → PyStr
  | 0, s => s
  | _, [] => []
  | fuel + 1, c :: s =>
    match trySup1 (c :: s) with
    | some rest => subSup1 fuel rest
    | none => c :: subSup1 fuel s

/-- Match `\(NASDAQ: \w+\)` at the head of `s`; on success return the rest. -/
def trySup2 (s : PyStr) : Option PyStr :=
  (matchLit s (strCodes "(NASDAQ: ")).bind fun s1 =>
  match takeWordChars s1 with
  | ([], _) => none
  | (_, rest) => matchLit rest [41]

/-- `SUPERFLUOUS_PATTERN_2.sub('', ·)`. -/
def subSup2 : ℕ → PyStr → PyStr
  | 0, s => s
  | _, [] => []
  | fuel + 1, c :: s =>
    match trySup2 (c :: s) with
    | some rest => subSup2 fuel rest
    | none => c :: subSup2 fuel s

/-- Embeds `delete_superfluous` (article_analyzer.py, lines 59–71): apply
pattern 1 then pattern 2. -/
def delete_superfluous (article : PyStr) : PyStr :=
  let s1 := subSup1 (article.length + 1) article
  subSup2 (s1.length + 1) s1

/-- Embeds `delete_punctuation` (lines 74–84): `PUNCTUATION_PATTERN.sub('', ·)`
with pattern `[^\w\s]`, i.e. keep exactly the word and whitespace characters. -/
def delete_punctuation (article : PyStr) : PyStr :=
  article.filter fun c => isWordCode c || isSpaceCode c

/-- Embeds `delete_stop_words` (lines 115–127): keep the words whose
lowercasing is not in the stopword set `sw`. -/
def delete_stop_words (sw : List PyStr) (article_list : List PyStr) : List PyStr :=
  article_list.filter fun word => !(sw.contains (pyLower word))

/-- `' '.join`. -/
def joinSpace : List PyStr → PyStr
  | [] => []
  | [w] => w
  | w :: ws => w ++ 32 :: joinSpace ws

/-- `". ".join`. -/
def joinDot : List PyStr → PyStr
  | [] => []
  | [s] => s
  | s :: ss => s ++ 46 :: 32 :: joinDot ss

/-- `re.sub(r'([.!?])(\w)', r'\1 \2', ·)`: insert a space between a
sentence-ending punctuation mark and an immediately following word
character. -/
def subSpacing : ℕ → PyStr → PyStr
  | 0, s => s
  | _, [] => []
  | fuel + 1, c :: s =>
    if isSentPunct c then
      match s with
      | d :: s' =>
        if isWordCode d then c :: 32 :: d :: subSpacing fuel s'
        else c :: subSpacing fuel s
      | [] => [c]
    else c :: subSpacing fuel s

/-- Embeds `text_processing` (article_analyzer.py, lines 172–198):
split into sentences, clean each sentence (superfluous patterns,
punctuation), tokenize into words, drop stopwords; then rejoin each word
list with spaces, capitalize, re-space after sentence punctuation, and join
all sentences with `". "`. -/
def text_processing (sent_tok word_tok : PyStr → List PyStr) (sw : List PyStr)
    (article_text : PyStr) : PyStr :=
  let sentences := sent_tok article_text
  let words_list := sentences.map fun sentence =>
    delete_stop_words sw (word_tok (delete_punctuation (delete_superfluous sentence)))
  let sentences_list := words_list.map fun word_list =>
    let sentence := pyCapitalize (joinSpace word_list)
    subSpacing (sentence.length + 1) sentence
  joinDot sentences_list

/-- A text with no punctuation: every character is a word or whitespace
character (the characters deleted by `delete_punctuation` are exactly the
others). -/
def noPunct (s : PyStr) : Prop :=
  ∀ c ∈ s, isWordCode c = true ∨ isSpaceCode c = true

/-- A well-formed word as produced by a word tokenizer on punctuation-free
text: non-empty and made of word characters only. -/
def goodWord (w : PyStr) : Prop := w ≠ [] ∧ ∀ c ∈ w, isWordCode c = true

def goodWords (ws : List PyStr) : Prop := ∀ w ∈ ws, goodWord w

instance (s : PyStr) : Decidable (noPunct s) := by unfold noPunct; infer_instance

instance (w : PyStr) : Decidable (goodWord w) := by unfold goodWord; infer_instance

instance (ws : List PyStr) : Decidable (goodWords ws) := by unfold goodWords; infer_instance

/-! ### Character-class lemmas -/

theorem isWordCode_iff (c : ℕ) : isWordCode c = true ↔
    (48 ≤ c ∧ c ≤ 57) ∨ (65 ≤ c ∧ c ≤ 90) ∨ (97 ≤ c ∧ c ≤ 122) ∨ c = 95 := by
  simp [isWordCode]
  omega

theorem isSpaceCode_iff (c : ℕ) : isSpaceCode c = true ↔
    c = 32 ∨ c = 9 ∨ c = 10 ∨ c = 13 ∨ c = 11 ∨ c = 12 := by
  simp [isSpaceCode]
  omega

theorem lowerCode_word {c : ℕ} (h : isWordCode c = true) :
    isWordCode (lowerCode c) = true := by
  rw [isWordCode_iff] at h ⊢
  unfold lowerCode
  split_ifs <;> omega

theorem upperCode_word {c : ℕ} (h : isWordCode c = true) :
    isWordCode (upperCode c) = true := by
  rw [isWordCode_iff] at h ⊢
  unfold upperCode
  split_ifs <;> omega

theorem lowerCode_lowerCode (c : ℕ) : lowerCode (lowerCode c) = lowerCode c := by
  unfold lowerCode
  split_ifs <;> omega

theorem lowerCode_upperCode (c : ℕ) : lowerCode (upperCode c) = lowerCode c := by
  unfold lowerCode upperCode
  split_ifs <;> omega

theorem upperCode_upperCode (c : ℕ) : upperCode (upperCode c) = upperCode c := by
  unfold upperCode
  split_ifs <;> omega

theorem word_ne_40 {c : ℕ} (h : isWordCode c = true) : c ≠ 40 := by
  rw [isWordCode_iff] at h
  omega

theorem word_not_sentPunct {c : ℕ} (h : isWordCode c = true) :
    isSentPunct c = false := by
  rw [isWordCode_iff] at h
  simp [isSentPunct]
  omega

theorem wordOr32_ne_40 {c : ℕ} (h : isWordCode c = true ∨ c = 32) : c ≠ 40 := by
  rcases h with h | h
  · exact word_ne_40 h
  · omega

theorem wordOr32_not_sentPunct {c : ℕ} (h : isWordCode c = true ∨ c = 32) :
    isSentPunct c = false := by
  rcases h with h | h
  · exact word_not_sentPunct h
  · subst h; rfl

theorem wordOr32_noPunct {s : PyStr} (h : ∀ c ∈ s, isWordCode c = true ∨ c = 32) :
    noPunct s := by
  intro c hc
  rcases h c hc with h' | h'
  · exact Or.inl h'
  · exact Or.inr (by subst h'; rfl)

/-! ### The cleaning passes are the identity on punctuation-free text -/

theorem matchLit_ne_head {c l : ℕ} {s ls : PyStr} (hc : c ≠ l) :
    matchLit (c :: s) (l :: ls) = none := by
  simp [matchLit, hc]

theorem subSup1_id (fuel : ℕ) (s : PyStr) (h : ∀ c ∈ s, c ≠ 40) :
    subSup1 fuel s = s := by
  induction fuel generalizing s with
  | zero => cases s <;> rfl
  | succ fuel ih =>
    cases s with
    | nil => rfl
    | cons c s =>
      have hc : c ≠ 40 := h c (List.mem_cons_self c s)
      have ht : trySup1 (c :: s) = none := by
        unfold trySup1
        rw [matchLit_ne_head hc]
        rfl
      simp only [subSup1, ht]
      exact congrArg (c :: ·) (ih s fun d hd => h d (List.mem_cons_of_mem c hd))

theorem strCodes_nasdaq : strCodes "(NASDAQ: " = 40 :: strCodes "NASDAQ: " := by decide

theorem subSup2_id (fuel : ℕ) (s : PyStr) (h : ∀ c ∈ s, c ≠ 40) :
    subSup2 fuel s = s := by
  induction fuel generalizing s with
  | zero => cases s <;> rfl
  | succ fuel ih =>
    cases s with
    | nil => rfl
    | cons c s =>
      have hc : c ≠ 40 := h c (List.mem_cons_self c s)
      have ht : trySup2 (c :: s) = none := by
        unfold trySup2
        rw [strCodes_nasdaq, matchLit_ne_head hc]
        rfl
      simp only [subSup2, ht]
      exact congrArg (c :: ·) (ih s fun d hd => h d (List.mem_cons_of_mem c hd))

theorem delete_superfluous_id (s : PyStr) (h : ∀ c ∈ s, c ≠ 40) :
    delete_superfluous s = s := by
  unfold delete_superfluous
  rw [subSup1_id _ _ h, subSup2_id _ _ h]

theorem delete_punctuation_id (s : PyStr) (h : noPunct s) :
    delete_punctuation s = s := by
  unfold delete_punctuation
  rw [List.filter_eq_self]
  intro c hc
  rcases h c hc with h' | h' <;> simp [h']

theorem delete_stop_words_id (sw : List PyStr) (ws : List PyStr)
    (h : ∀ w ∈ ws, sw.contains (pyLower w) = false) :
    delete_stop_words sw ws = ws := by
  unfold delete_stop_words
  rw [List.filter_eq_self]
  intro w hw
  simpa using h w hw

theorem subSpacing_id (fuel : ℕ) (s : PyStr) (h : ∀ c ∈ s, isSentPunct c = false) :
    subSpacing fuel s = s := by
  induction fuel generalizing s with
  | zero => cases s <;> rfl
  | succ fuel ih =>
    cases s with
    | nil => rfl
    | cons c s =>
      have hc : isSentPunct c = false := h c (List.mem_cons_self c s)
      simp only [subSpacing, hc, Bool.false_eq_true, if_false]
      exact congrArg (c :: ·) (ih s fun d hd => h d (List.mem_cons_of_mem c hd))

/-! ### Structure of the rebuilt sentence -/

theorem joinSpace_cons2 (w x : PyStr) (ws : List PyStr) :
    joinSpace (w :: x :: ws) = w ++ 32 :: joinSpace (x :: ws) := rfl

theorem pyLower_append (a b : PyStr) : pyLower (a ++ b) = pyLower a ++ pyLower b := by
  simp [pyLower]

theorem pyLower_join (ws : List PyStr) :
    pyLower (joinSpace ws) = joinSpace (ws.map pyLower) := by
  induction ws with
  | nil => rfl
  | cons w ws ih =>
    cases ws with
    | nil => rfl
    | cons x t =>
      rw [joinSpace_cons2, pyLower_append]
      rw [show List.map pyLower (w :: x :: t) =
        pyLower w :: pyLower x :: List.map pyLower t from rfl]
      rw [joinSpace_cons2]
      rw [show (pyLower x :: List.map pyLower t) = List.map pyLower (x :: t) from rfl, ← ih]
      rfl

theorem pyLower_idem (s : PyStr) : pyLower (pyLower s) = pyLower s := by
  unfold pyLower
  rw [List.map_map]
  exact List.map_congr_left fun c _ => lowerCode_lowerCode c

theorem pyLower_cap (w : PyStr) : pyLower (pyCapitalize w) = pyLower w := by
  cases w with
  | nil => rfl
  | cons c s =>
    show lowerCode (upperCode c) :: pyLower (pyLower s) = lowerCode c :: pyLower s
    rw [lowerCode_upperCode, pyLower_idem]

theorem pyCapitalize_idem (s : PyStr) : pyCapitalize (pyCapitalize s) = pyCapitalize s := by
  cases s with
  | nil => rfl
  | cons c s =>
    show upperCode (upperCode c) :: pyLower (pyLower s) = upperCode c :: pyLower s
    rw [upperCode_upperCode, pyLower_idem]

/-- The words of the sentence after `capitalize()`: the first word gets
capitalized, every later word gets lowercased (because `str.capitalize()`
lowercases everything after the first character). -/
def capWords : List PyStr → List PyStr
  | [] => []
  | w :: ws => pyCapitalize w :: ws.map pyLower

theorem pyCapitalize_append_cons (w rest : PyStr) :
    pyCapitalize (w ++ 32 :: rest) = pyCapitalize w ++ 32 :: pyLower rest := by
  cases w with
  | nil => rfl
  | cons c w' =>
    show upperCode c :: pyLower (w' ++ 32 :: rest) =
      (upperCode c :: pyLower w') ++ 32 :: pyLower rest
    rw [pyLower_append]
    rfl

theorem cap_join (ws : List PyStr) :
    pyCapitalize (joinSpace ws) = joinSpace (capWords ws) := by
  cases ws with
  | nil => rfl
  | cons w ws =>
    cases ws with
    | nil => rfl
    | cons x t =>
      rw [joinSpace_cons2, pyCapitalize_append_cons, pyLower_join, capWords]
      rw [List.map_cons]
      rfl

/-! ### Well-formedness is preserved by the rebuild -/

theorem pyCapitalize_goodWord {w : PyStr} (h : goodWord w) :
    goodWord (pyCapitalize w) := by
  obtain ⟨hne, hch⟩ := h
  cases w with
  | nil => exact absurd rfl hne
  | cons c s =>
    constructor
    · simp [pyCapitalize]
    · intro d hd
      rw [show pyCapitalize (c :: s) = upperCode c :: pyLower s from rfl] at hd
      rcases List.mem_cons.1 hd with h' | h'
      · subst h'
        exact upperCode_word (hch c (List.mem_cons_self c s))
      · obtain ⟨d₀, hd₀, rfl⟩ := List.mem_map.1 h'
        exact lowerCode_word (hch d₀ (List.mem_cons_of_mem c hd₀))

theorem pyLower_goodWord {w : PyStr} (h : goodWord w) : goodWord (pyLower w) := by
  obtain ⟨hne, hch⟩ := h
  cases w with
  | nil => exact absurd rfl hne
  | cons c s =>
    constructor
    · simp [pyLower]
    · intro d hd
      obtain ⟨d₀, hd₀, rfl⟩ := List.mem_map.1 hd
      exact lowerCode_word (hch d₀ hd₀)

theorem capWords_good {ws : List PyStr} (h : goodWords ws) :
    goodWords (capWords ws) := by
  cases ws with
  | nil => intro w hw; cases hw
  | cons w t =>
    intro w' hw'
    rw [show capWords (w :: t) = pyCapitalize w :: t.map pyLower from rfl] at hw'
    rcases List.mem_cons.1 hw' with h' | h'
    · subst h'
      exact pyCapitalize_goodWord (h w (List.mem_cons_self w t))
    · obtain ⟨w₀, hw₀, rfl⟩ := List.mem_map.1 h'
      exact pyLower_goodWord (h w₀ (List.mem_cons_of_mem w hw₀))

theorem capWords_lower (ws : List PyStr) :
    ∀ w' ∈ capWords ws, ∃ w ∈ ws, pyLower w' = pyLower w := by
  cases ws with
  | nil => intro w' hw'; cases hw'
  | cons w t =>
    intro w' hw'
    rw [show capWords (w :: t) = pyCapitalize w :: t.map pyLower from rfl] at hw'
    rcases List.mem_cons.1 hw' with h' | h'
    · exact ⟨w, List.mem_cons_self w t, by rw [h', pyLower_cap]⟩
    · obtain ⟨w₀, hw₀, rfl⟩ := List.mem_map.1 h'
      exact ⟨w₀, List.mem_cons_of_mem w hw₀, pyLower_idem w₀⟩

theorem joinSpace_chars {ws : List PyStr}
    (h : ∀ w ∈ ws, ∀ c ∈ w, isWordCode c = true) :
    ∀ c ∈ joinSpace ws, isWordCode c = true ∨ c = 32 := by
  induction ws with
  | nil => intro c hc; cases hc
  | cons w t ih =>
    cases t with
    | nil =>
      intro c hc
      exact Or.inl (h w (List.mem_cons_self w []) c hc)
    | cons x t' =>
      intro c hc
      rw [joinSpace_cons2] at hc
      rcases List.mem_append.1 hc with h' | h'
      · exact Or.inl (h w (List.mem_cons_self _ _) c h')
      · rcases List.mem_cons.1 h' with h'' | h''
        · exact Or.inr h''
        · exact ih (fun w' hw' => h w' (List.mem_cons_of_mem w hw')) c h''

theorem pyCapitalize_chars {s : PyStr}
    (h : ∀ c ∈ s, isWordCode c = true ∨ c = 32) :
    ∀ c ∈ pyCapitalize s, isWordCode c = true ∨ c = 32 := by
  cases s with
  | nil => intro c hc; cases hc
  | cons a s' =>
    intro c hc
    rw [show pyCapitalize (a :: s') = upperCode a :: pyLower s' from rfl] at hc
    rcases List.mem_cons.1 hc with h' | h'
    · subst h'
      rcases h a (List.mem_cons_self a s') with hw | hsp
      · exact Or.inl (upperCode_word hw)
      · subst hsp
        exact Or.inr rfl
    · obtain ⟨c₀, hc₀, rfl⟩ := List.mem_map.1 h'
      rcases h c₀ (List.mem_cons_of_mem a hc₀) with hw | hsp
      · exact Or.inl (lowerCode_word hw)
      · subst hsp
        exact Or.inr rfl

/-- Evaluation of one normalisation pass on clean input: if the sentence
tokenizer returns the text as one sentence, the text has no punctuation, and
the word tokenizer yields well-formed stopword-free words, the pass reduces
to capitalizing the space-join of the words. -/
theorem text_processing_clean (st wt : PyStr → List PyStr) (sw : List PyStr)
    (s : PyStr)
    (Hst : st s = [s]) (Hnp : noPunct s)
    (Hgw : goodWords (wt s))
    (Hsw : ∀ w ∈ wt s, sw.contains (pyLower w) = false) :
    text_processing st wt sw s = pyCapitalize (joinSpace (wt s)) := by
  have h40 : ∀ c ∈ s, c ≠ 40 := by
    intro c hc
    rcases Hnp c hc with h | h
    · exact word_ne_40 h
    · rw [isSpaceCode_iff] at h
      omega
  have hds : delete_superfluous s = s := delete_superfluous_id s h40
  have hdp : delete_punctuation s = s := delete_punctuation_id s Hnp
  have hdsw : delete_stop_words sw (wt s) = wt s := delete_stop_words_id sw (wt s) Hsw
  have hchars : ∀ c ∈ pyCapitalize (joinSpace (wt s)), isWordCode c = true ∨ c = 32 :=
    pyCapitalize_chars (joinSpace_chars fun w hw => (Hgw w hw).2)
  have hsp : subSpacing ((pyCapitalize (joinSpace (wt s))).length + 1)
      (pyCapitalize (joinSpace (wt s))) = pyCapitalize (joinSpace (wt s)) :=
    subSpacing_id _ _ fun c hc => wordOr32_not_sentPunct (hchars c hc)
  unfold text_processing
  rw [Hst]
  simp only [List.map_cons, List.map_nil]
  rw [hds, hdp, hdsw, hsp]
  rfl

/-! ### Claim about the normalizer -/

/-- C9: on input with no stopwords and no punctuation the normalizer is
idempotent.  The NLTK tokenizers are abstract parameters constrained by
their standard behaviour: a punctuation-free text is one sentence
(`Hst`), and word-tokenizing a space-join of well-formed words returns
those words (`Hwt`).  The input's tokenization must consist of non-empty
all-word-character words (`Hgw`, the claim's "no punctuation") none of
which lowercases into the stopword set (`Hsw`, the claim's "no
stopwords").  No capitalization premise is needed: the first pass ends in
`capitalize()`, which the second pass repeats idempotently, so the result
also covers the claim's "already-capitalized sentences" inputs. -/
theorem text_processing_idempotent (st wt : PyStr → List PyStr) (sw : List PyStr)
    (x : PyStr)
    (Hst : ∀ s, noPunct s → st s = [s])
    (Hwt : ∀ ws, goodWords ws → wt (joinSpace ws) = ws)
    (Hx : noPunct x)
    (Hgw : goodWords (wt x))
    (Hsw : ∀ w ∈ wt x, sw.contains (pyLower w) = false) :
    text_processing st wt sw (text_processing st wt sw x) =
      text_processing st wt sw x := by
  have h1 : text_processing st wt sw x = pyCapitalize (joinSpace (wt x)) :=
    text_processing_clean st wt sw x (Hst x Hx) Hx Hgw Hsw
  have hcw := cap_join (wt x)
  have Hgw' : goodWords (capWords (wt x)) := capWords_good Hgw
  have hchars : ∀ c ∈ joinSpace (capWords (wt x)), isWordCode c = true ∨ c = 32 :=
    joinSpace_chars fun w hw => (Hgw' w hw).2
  have Hnp' : noPunct (joinSpace (capWords (wt x))) := wordOr32_noPunct hchars
  have Hwt' : wt (joinSpace (capWords (wt x))) = capWords (wt x) := Hwt _ Hgw'
  have Hsw' : ∀ w ∈ wt (joinSpace (capWords (wt x))),
      sw.contains (pyLower w) = false := by
    rw [Hwt']
    intro w hw
    obtain ⟨w₀, hw₀, he⟩ := capWords_lower (wt x) w hw
    rw [he]
    exact Hsw w₀ hw₀
  have Hgw'' : goodWords (wt (joinSpace (capWords (wt x)))) := by
    rw [Hwt']
    exact Hgw'
  have h2 : text_processing st wt sw (joinSpace (capWords (wt x))) =
      pyCapitalize (joinSpace (wt (joinSpace (capWords (wt x))))) :=
    text_processing_clean st wt sw _ (Hst _ Hnp') Hnp' Hgw'' Hsw'
  calc text_processing st wt sw (text_processing st wt sw x)
      = text_processing st wt sw (joinSpace (capWords (wt x))) := by rw [h1, hcw]
    _ = pyCapitalize (joinSpace (wt (joinSpace (capWords (wt x))))) := h2
    _ = pyCapitalize (joinSpace (capWords (wt x))) := by rw [Hwt']
    _ = pyCapitalize (pyCapitalize (joinSpace (wt x))) := by rw [← hcw]
    _ = pyCapitalize (joinSpace (wt x)) := pyCapitalize_idem _
    _ = text_processing st wt sw x := h1.symm

/-! ### Concrete tokenizers for the witness -/

/-- A whitespace word-splitter (accumulator holds the current word
reversed); it inverts `joinSpace` on well-formed word lists, as a word
tokenizer does on simple text. -/
def splitWAux : PyStr → PyStr → List PyStr
  | [], acc => if acc = [] then [] else [acc.reverse]
  | c :: s, acc =>
    if c = 32 then
      if acc = [] then splitWAux s [] else acc.reverse :: splitWAux s []
    else splitWAux s (c :: acc)

def splitW (s : PyStr) : List PyStr := splitWAux s []

theorem splitWAux_cons_ne {c : ℕ} (hc : c ≠ 32) (s acc : PyStr) :
    splitWAux (c :: s) acc = splitWAux s (c :: acc) := by
  simp [splitWAux, hc]

theorem splitWAux_word (w : PyStr) (hw : w ≠ []) (hnc : ∀ c ∈ w, c ≠ 32) :
    (∀ s acc, splitWAux (w ++ 32 :: s) acc = (acc.reverse ++ w) :: splitWAux s []) ∧
    (∀ acc, splitWAux w acc = [acc.reverse ++ w]) := by
  induction w with
  | nil => exact absurd rfl hw
  | cons c w' ih =>
    have hc : c ≠ 32 := hnc c (List.mem_cons_self c w')
    constructor
    · intro s acc
      rw [List.cons_append, splitWAux_cons_ne hc]
      cases w' with
      | nil => simp [splitWAux]
      | cons d w'' =>
        have ih' := ih (by simp) (fun e he => hnc e (List.mem_cons_of_mem c he))
        rw [ih'.1 s (c :: acc)]
        simp
    · intro acc
      rw [splitWAux_cons_ne hc]
      cases w' with
      | nil => simp [splitWAux]
      | cons d w'' =>
        have ih' := ih (by simp) (fun e he => hnc e (List.mem_cons_of_mem c he))
        rw [ih'.2 (c :: acc)]
        simp

theorem splitW_joinSpace (ws : List PyStr) (h : goodWords ws) :
    splitW (joinSpace ws) = ws := by
  induction ws with
  | nil => rfl
  | cons w t ih =>
    have hgw : goodWord w := h w (List.mem_cons_self w t)
    have hnc : ∀ c ∈ w, c ≠ 32 := fun c hc => by
      have := hgw.2 c hc
      rw [isWordCode_iff] at this
      omega
    cases t with
    | nil =>
      show splitWAux w [] = [w]
      rw [(splitWAux_word w hgw.1 hnc).2 []]
      rfl
    | cons x t' =>
      show splitWAux (w ++ 32 :: joinSpace (x :: t')) [] = w :: x :: t'
      rw [(splitWAux_word w hgw.1 hnc).1 (joinSpace (x :: t')) []]
      rw [show ([] : PyStr).reverse ++ w = w from by simp]
      rw [show splitWAux (joinSpace (x :: t')) [] = splitW (joinSpace (x :: t')) from rfl]
      rw [ih fun w' hw' => h w' (List.mem_cons_of_mem w hw')]

theorem text_processing_idempotent_witness :
    noPunct (strCodes "Apple beats revenue estimates") ∧
    goodWords (splitW (strCodes "Apple beats revenue estimates")) ∧
    (∀ w ∈ splitW (strCodes "Apple beats revenue estimates"),
      ([strCodes "the"] : List PyStr).contains (pyLower w) = false) ∧
    text_processing (fun s => [s]) splitW [strCodes "the"]
        (text_processing (fun s => [s]) splitW [strCodes "the"]
          (strCodes "Apple beats revenue estimates")) =
      text_processing (fun s => [s]) splitW [strCodes "the"]
        (strCodes "Apple beats revenue estimates") :=
  ⟨by decide, by decide, by decide,
   text_processing_idempotent (fun s => [s]) splitW [strCodes "the"]
     (strCodes "Apple beats revenue estimates")
     (fun _ _ => rfl) splitW_joinSpace (by decide) (by decide) (by decide)⟩
